import Mathlib

/-!
Verification of the vendoring pipeline of `vercel-cli-python`.

This file gives a shallow embedding of the core components of the
repository — the archive safety layer (`safe_target_path`, `extract_tgz`),
the integrity verifier (`verify_tgz`, with a real SHA-1 and the lenient
base64 decoder of the Python standard library), the manifest sanitizer
(`sanitize_package_data`), the vendor orchestrator (`update_vendor`) and
the two check front ends — and proves or refutes the specified properties
about them.

Conventions of the embedding:
* bytes are `List Nat` (each element < 256); strings are Lean `String`,
  processed through explicit structurally recursive functions on their
  character lists so that all definitions evaluate by kernel reduction;
* Python functions that can raise are embedded as `Except`-valued
  functions; an exception that the source catches is handled at the
  corresponding `match`;
* filesystem trees are finite path-keyed association lists; external
  collaborators (the npm registry client, `json.loads`/`json.dumps`,
  the production dependency install) are fields of an `Env` structure
  that the orchestrator consumes, exactly at the call sites where the
  source invokes them.
-/

/-! ## Python string and path primitives -/

/-- Whitespace characters removed by Python's `str.strip()` (the ASCII
ones; member names are treated as ASCII-compatible text). -/
def pySpace (c : Char) : Bool :=
  c = ' ' || c = '\t' || c = '\n' || c = '\r' || c = '\x0b' || c = '\x0c'

/-- Model of Python `str.strip()`: remove leading and trailing whitespace. -/
def pyStrip (s : String) : String :=
  String.mk ((s.data.dropWhile pySpace).reverse.dropWhile pySpace).reverse

/-- Character-list core of splitting a string on a separator character,
with an accumulator holding the current (reversed) piece. -/
def splitOnCharAux (sep : Char) : List Char → List Char → List (List Char)
  | [], acc => [acc.reverse]
  | c :: cs, acc =>
    if c = sep then acc.reverse :: splitOnCharAux sep cs []
    else splitOnCharAux sep cs (c :: acc)

/-- Model of Python `str.split(sep)` for a one-character separator
(also the behaviour of splitting a POSIX path on `/`). -/
def pySplitChar (sep : Char) (s : String) : List String :=
  (splitOnCharAux sep s.data []).map String.mk

/-- Structural `startsWith` on character lists. -/
def startsWithChars : List Char → List Char → Bool
  | [], _ => true
  | _ :: _, [] => false
  | p :: ps, c :: cs => p = c && startsWithChars ps cs

/-- Model of Python `str.startswith(pre)`. -/
def pyStartsWith (pre s : String) : Bool := startsWithChars pre.data s.data

/-- Model of `PurePosixPath(rel).is_absolute()` for the POSIX flavour:
true exactly when the string starts with a slash. -/
def pyIsAbsolute (s : String) : Bool :=
  match s.data with
  | [] => false
  | c :: _ => c = '/'

/-- Model of `PurePosixPath(rel).parts` for a relative POSIX path:
split on `/`; empty segments (spurious slashes) and single-dot segments
are collapsed away by `pathlib`'s normalization. -/
def pySegments (s : String) : List String :=
  (pySplitChar '/' s).filter (fun p => decide (p ≠ "") && decide (p ≠ "."))

/-- Model of Python `s.split(sep, 1)` unpacked into two variables:
`none` when the separator does not occur (so the unpacking raises
`ValueError`), otherwise the text before and after its first occurrence. -/
def pySplitOnce (sep : Char) (s : String) : Option (String × String) :=
  match s.data.findIdx? (fun c => c = sep) with
  | none => none
  | some i => some (String.mk (s.data.take i), String.mk (s.data.drop (i + 1)))

/-- Model of Python `str.lower()` for ASCII letters. -/
def pyLower (s : String) : String :=
  String.mk (s.data.map (fun c =>
    if 'A' ≤ c ∧ c ≤ 'Z' then Char.ofNat (c.toNat + 32) else c))

/-! ## Archive safety layer: `safe_target_path` -/

/-- Embedding of `safe_target_path(member_name, dest)` from
`src/vercel_cli/vendor_update.py` (identical in
`src/scripts/update_vendor.py`).  The destination is kept abstract: the
function returns the list of path segments under `dest` of the accepted
target (`dest / rel_path` has parts `dest.parts ++ result`), or `none`
to skip the member.  An empty result therefore denotes the destination
directory itself. -/
def safe_target_path (member_name : String) : Option (List String) :=
  if ¬ pyStartsWith "package/" member_name then none
  else
    let rel := String.mk (member_name.data.drop 8)
    if rel = "" ∨ rel = "." then none
    else if pyIsAbsolute rel then none
    else
      let parts := pySegments rel
      if parts.any (fun part =>
          decide (pyStrip part ≠ part) || decide (pyStrip part = ".") ||
          decide (pyStrip part = "..")) then
        none
      else
        some parts

example : safe_target_path "package/index.js" = some ["index.js"] := by decide
example : safe_target_path "index.js" = none := by decide
example : safe_target_path "package/.. /x" = none := by decide
example : safe_target_path "package/.." = none := by decide
example : safe_target_path "package/" = none := by decide
example : safe_target_path "package/a/b.js" = some ["a", "b.js"] := by decide
example : safe_target_path "package/a/./b" = some ["a", "b"] := by decide
example : safe_target_path "package/./" = some [] := by decide
example : safe_target_path "package//etc/passwd" = none := by decide
example : safe_target_path "package/a//b" = some ["a", "b"] := by decide

/-! ## Archive members and extraction -/

/-- Type of a tar archive member, following `tarfile.TarInfo`:
`reg` covers `REGTYPE`/`AREGTYPE`/`CONTTYPE` (`isreg()`), `sym` is
`SYMTYPE` (`issym()`), `lnk` is `LNKTYPE` (`islnk()`), and
`fifo`/`chrdev`/`blkdev` are the remaining special member types. -/
inductive FType where
  | reg | dir | sym | lnk | fifo | chrdev | blkdev
deriving DecidableEq, Repr

/-- One member of the packed artifact: name, type, link target (only
meaningful for link members), content bytes and permission mode. -/
structure TarMember where
  name : String
  ftype : FType
  linkname : String
  content : List Nat
  mode : Nat
deriving DecidableEq, Repr

/-- Member types skipped unconditionally by `extract_tgz`
(`member.issym() or member.islnk()`). -/
def isLinkMember (m : TarMember) : Bool :=
  m.ftype = FType.sym || m.ftype = FType.lnk

/-- Filesystem operations an extraction loop could perform on the
destination.  The link-creating operations exist in the type (a naive
`tf.extract` would produce them) but are never emitted by the embedded
extractor — that is the content of the safety claims. -/
inductive FsOp where
  | mkdirP (path : List String)
  | writeFile (path : List String) (content : List Nat) (mode : Nat)
  | mkSymlink (path : List String) (target : String)
  | mkHardlink (path : List String) (target : String)
deriving DecidableEq, Repr

/-- Whether an operation creates a link entry. -/
def isLinkOp : FsOp → Bool
  | FsOp.mkSymlink _ _ => true
  | FsOp.mkHardlink _ _ => true
  | _ => false

/-- Embedding of `_extract_member(tf, member, target)`: directories are
created with parents, regular files get their parent created and their
bytes streamed to the target (the best-effort `chmod` is recorded as the
mode of the written file); any other member type does nothing.
`target` is given as its segments under the destination root. -/
def extract_member (m : TarMember) (target : List String) : List FsOp :=
  match m.ftype with
  | FType.dir => [FsOp.mkdirP target]
  | FType.reg => [FsOp.mkdirP target.dropLast, FsOp.writeFile target m.content m.mode]
  | _ => []

/-- Operations contributed by one member of the loop body of
`extract_tgz`: link members are skipped before any path resolution,
members whose name `safe_target_path` rejects are skipped silently,
and the rest are materialized by `_extract_member`. -/
def member_ops (m : TarMember) : List FsOp :=
  if isLinkMember m then []
  else
    match safe_target_path m.name with
    | none => []
    | some target => extract_member m target

/-- Embedding of `extract_tgz(tgz_path, dest)` as the list of filesystem
operations it performs on the destination: `dest.mkdir(parents=True,
exist_ok=True)` first (the empty path denotes the destination root),
then the loop over `tf.getmembers()`. -/
def extract_tgz (members : List TarMember) : List FsOp :=
  FsOp.mkdirP [] :: (members.map member_ops).flatten

/-! ## Destination filesystem model -/

/-- An entry of the modelled filesystem. -/
inductive FsEntry where
  | dir
  | file (content : List Nat) (mode : Nat)
  | symlink (target : String)
  | hardlink (target : String)
deriving DecidableEq, Repr

/-- A filesystem tree as a finite association list from paths (segment
lists relative to the tree's root) to entries. -/
abbrev Fs : Type := List (List String × FsEntry)

/-- Lookup of the entry at a path (first match). -/
def lookupFs (fs : Fs) (p : List String) : Option FsEntry :=
  (fs.find? (fun e => decide (e.1 = p))).map (fun e => e.2)

/-- Set the entry at a path, replacing an existing entry in place or
appending a new one — the dictionary-update semantics of writing over a
path in a directory tree. -/
def updEntry (fs : Fs) (p : List String) (e : FsEntry) : Fs :=
  if fs.any (fun q => decide (q.1 = p)) then
    fs.map (fun q => if q.1 = p then (p, e) else q)
  else
    fs ++ [(p, e)]

/-- All nonempty prefixes of a path, shortest first. -/
def pathPrefixes (p : List String) : List (List String) :=
  (List.range p.length).map (fun i => p.take (i + 1))

/-- Apply one filesystem operation.  `mkdirP` creates every missing
ancestor directory (`parents=True, exist_ok=True`); writes and link
creations set the entry at the path. -/
def applyOp (fs : Fs) : FsOp → Fs
  | FsOp.mkdirP p =>
    (pathPrefixes p).foldl
      (fun acc q => if acc.any (fun r => decide (r.1 = q)) then acc else acc ++ [(q, FsEntry.dir)]) fs
  | FsOp.writeFile p c m => updEntry fs p (FsEntry.file c m)
  | FsOp.mkSymlink p t => updEntry fs p (FsEntry.symlink t)
  | FsOp.mkHardlink p t => updEntry fs p (FsEntry.hardlink t)

/-- Apply a list of filesystem operations in order. -/
def applyOps (ops : List FsOp) (fs : Fs) : Fs := ops.foldl applyOp fs

/-- Whether a filesystem entry is something other than a link. -/
def entryNonLink : FsEntry → Bool
  | FsEntry.symlink _ => false
  | FsEntry.hardlink _ => false
  | _ => true

/-- Whether a filesystem contains no link entry. -/
def noLinksFs (fs : Fs) : Bool :=
  fs.all (fun e => entryNonLink e.2)

example :
    extract_tgz [⟨"package/index.js", FType.reg, "", [1, 2], 420⟩,
                 ⟨"package/link", FType.sym, "../outside", [], 0⟩] =
      [FsOp.mkdirP [], FsOp.mkdirP [], FsOp.writeFile ["index.js"] [1, 2] 420] := by decide

example :
    applyOps (extract_tgz [⟨"package/a/b.js", FType.reg, "", [7], 420⟩]) [] =
      [(["a"], FsEntry.dir), (["a", "b.js"], FsEntry.file [7] 420)] := by decide

/-! ## Base64 decoding (Python `base64.b64decode`, non-validating mode) -/

/-- Value of a character in the standard base64 alphabet, `none` for
characters outside it. -/
def b64CharVal (c : Char) : Option Nat :=
  if 'A' ≤ c ∧ c ≤ 'Z' then some (c.toNat - 65)
  else if 'a' ≤ c ∧ c ≤ 'z' then some (c.toNat - 71)
  else if '0' ≤ c ∧ c ≤ '9' then some (c.toNat + 4)
  else if c = '+' then some 62
  else if c = '/' then some 63
  else none

/-- Core loop of CPython's `binascii.a2b_base64` in non-strict mode
(the mode used by `base64.b64decode(s)` with `validate=False`): walk the
characters keeping the position inside the current quad, the pending
bits of the previous character, and the run of padding characters seen
since the last data character.  Characters outside the alphabet are
discarded; a `=` completes the input once the quad has at least two data
characters and enough padding; at end of input a partially filled quad
is an error (`Incorrect padding`). -/
def b64decodeAux : List Char → Nat → Nat → Nat → List Nat → Except Unit (List Nat)
  | [], quad, _, _, out => if quad = 0 then Except.ok out else Except.error ()
  | c :: cs, quad, left, pads, out =>
    if c = '=' then
      if quad ≥ 2 ∧ quad + (pads + 1) ≥ 4 then Except.ok out
      else b64decodeAux cs quad left (pads + 1) out
    else
      match b64CharVal c with
      | none => b64decodeAux cs quad left pads out
      | some v =>
        match quad with
        | 0 => b64decodeAux cs 1 v 0 out
        | 1 => b64decodeAux cs 2 (v % 16) 0 (out ++ [left * 4 + v / 16])
        | 2 => b64decodeAux cs 3 (v % 4) 0 (out ++ [left * 16 + v / 4])
        | _ => b64decodeAux cs 0 0 0 (out ++ [left * 64 + v])

/-- Model of Python `base64.b64decode(s)` on a `str` argument: the
string must be pure ASCII (`str.encode('ascii')` raises otherwise),
then the non-strict binascii decoder runs. -/
def b64decode (s : String) : Except Unit (List Nat) :=
  if s.data.any (fun c => c.toNat ≥ 128) then Except.error ()
  else b64decodeAux s.data 0 0 0 []

deriving instance DecidableEq for Except

example : b64decode "!!!!" = Except.ok [] := by decide
example : b64decode "" = Except.ok [] := by decide
example : b64decode "abc" = Except.error () := by decide
example : b64decode "abcd" = Except.ok [105, 183, 29] := by decide
example : b64decode "ab==cd==" = Except.ok [105] := by decide
example : b64decode "a===" = Except.error () := by decide
example : b64decode "=" = Except.ok [] := by decide
example : b64decode "====" = Except.ok [] := by decide
example : b64decode "ab=" = Except.error () := by decide
example : b64decode "AA==" = Except.ok [0] := by decide
example : b64decode "a=b=" = Except.error () := by decide
example : b64decode "=abcd" = Except.ok [105, 183, 29] := by decide
example : b64decode "ab=cd" = Except.ok [105, 183, 29] := by decide
example : b64decode "abcd=" = Except.ok [105, 183, 29] := by decide
example : b64decode "abcde" = Except.error () := by decide
example : b64decode "ab==c" = Except.ok [105] := by decide
example : b64decode "a!b!c!d!" = Except.ok [105, 183, 29] := by decide
example : b64decode "QUJD" = Except.ok [65, 66, 67] := by decide
example : b64decode "aGVsbG8=" = Except.ok [104, 101, 108, 108, 111] := by decide
example : b64decode "Abc=" = Except.ok [1, 183] := by decide
example : b64decode "****ab==" = Except.ok [105] := by decide
example : b64decode "ab!=" = Except.error () := by decide
example : b64decode "ab=!=" = Except.ok [105] := by decide
example : b64decode "=ab=" = Except.error () := by decide
example : b64decode "==ab==" = Except.ok [105] := by decide

/-! ## SHA-1 (the legacy 160-bit digest used for npm `shasum`) -/

/-- Rotate a 32-bit word left by `n` bits. -/
def rotl32 (x n : Nat) : Nat :=
  ((x <<< n) % 4294967296) ||| (x >>> (32 - n))

/-- Big-endian byte representation of `x` on `k` bytes. -/
def beBytes : Nat → Nat → List Nat
  | 0, _ => []
  | k + 1, x => beBytes k (x / 256) ++ [x % 256]

/-- Big-endian word value of a byte list. -/
def beWord (l : List Nat) : Nat := l.foldl (fun acc b => acc * 256 + b) 0

/-- Split a list into chunks of `n` elements (fuel-driven so that the
definition is structurally recursive and evaluates in the kernel). -/
def chunksAux (n : Nat) : Nat → List Nat → List (List Nat)
  | 0, _ => []
  | _, [] => []
  | fuel + 1, l => l.take n :: chunksAux n fuel (l.drop n)

/-- Split a byte list into chunks of `n` bytes. -/
def chunks (n : Nat) (l : List Nat) : List (List Nat) := chunksAux n l.length l

/-- Merkle–Damgård padding of SHA-1 (and SHA-256/512 with a 64-bit
length): append `0x80`, zero bytes up to 56 mod 64, then the bit length
on 8 big-endian bytes. -/
def sha1Pad (msg : List Nat) : List Nat :=
  msg ++ [128] ++ List.replicate ((119 - msg.length % 64) % 64) 0 ++ beBytes 8 (msg.length * 8)

/-- Extend a 16-word SHA-1 block schedule by `fuel` more words. -/
def sha1Extend : Nat → List Nat → List Nat
  | 0, ws => ws
  | fuel + 1, ws =>
    let n := ws.length
    let w := rotl32 ((ws.getD (n - 3) 0) ^^^ (ws.getD (n - 8) 0) ^^^
                    (ws.getD (n - 14) 0) ^^^ (ws.getD (n - 16) 0)) 1
    sha1Extend fuel (ws ++ [w])

/-- SHA-1 round function. -/
def sha1F (i b c d : Nat) : Nat :=
  if i < 20 then (b &&& c) ||| ((b ^^^ 4294967295) &&& d)
  else if i < 40 then b ^^^ c ^^^ d
  else if i < 60 then (b &&& c) ||| (b &&& d) ||| (c &&& d)
  else b ^^^ c ^^^ d

/-- SHA-1 round constants. -/
def sha1K (i : Nat) : Nat :=
  if i < 20 then 0x5A827999
  else if i < 40 then 0x6ED9EBA1
  else if i < 60 then 0x8F1BBCDC
  else 0xCA62C1D6

/-- Compress one 64-byte block into the running SHA-1 state. -/
def sha1Compress (h : Nat × Nat × Nat × Nat × Nat) (block : List Nat) : Nat × Nat × Nat × Nat × Nat :=
  let ws := sha1Extend 64 ((chunks 4 block).map beWord)
  let st := (List.range 80).foldl
    (fun (st : Nat × Nat × Nat × Nat × Nat) i =>
      let t := (rotl32 st.1 5 + sha1F i st.2.1 st.2.2.1 st.2.2.2.1 + st.2.2.2.2 +
                sha1K i + ws.getD i 0) % 4294967296
      (t, st.1, rotl32 st.2.1 30, st.2.2.1, st.2.2.2.1))
    (h.1, h.2.1, h.2.2.1, h.2.2.2.1, h.2.2.2.2)
  ((h.1 + st.1) % 4294967296, (h.2.1 + st.2.1) % 4294967296,
   (h.2.2.1 + st.2.2.1) % 4294967296, (h.2.2.2.1 + st.2.2.2.1) % 4294967296,
   (h.2.2.2.2 + st.2.2.2.2) % 4294967296)

/-- SHA-1 digest (20 bytes) of a byte string, as computed by
`hashlib.sha1` over the streamed file content. -/
def sha1Bytes (msg : List Nat) : List Nat :=
  let h := (chunks 64 (sha1Pad msg)).foldl sha1Compress
    (0x67452301, 0xEFCDAB89, 0x98BADCFE, 0x10325476, 0xC3D2E1F0)
  beBytes 4 h.1 ++ beBytes 4 h.2.1 ++ beBytes 4 h.2.2.1 ++ beBytes 4 h.2.2.2.1 ++ beBytes 4 h.2.2.2.2

/-- Lowercase hexadecimal digit. -/
def hexDigit (n : Nat) : Char :=
  if n < 10 then Char.ofNat (48 + n) else Char.ofNat (87 + n)

/-- Lowercase hexadecimal rendering of a byte string — the return
convention of Python's `hexdigest()`. -/
def bytesToHex (bs : List Nat) : String :=
  String.mk ((bs.map (fun b => [hexDigit (b / 16), hexDigit (b % 16)])).flatten)

/-- Model of `hashlib.sha1(...).hexdigest()`. -/
def sha1Hex (msg : List Nat) : String := bytesToHex (sha1Bytes msg)

set_option maxRecDepth 100000 in
example : sha1Hex [] = "da39a3ee5e6b4b0d3255bfef95601890afd80709" := by decide

set_option maxRecDepth 100000 in
example : sha1Hex [97, 98, 99] = "a9993e364706816aba3e25717850c26c9cd0d89d" := by decide

/-! ## SHA-512 (the digest algorithm of npm `integrity` descriptors) -/

/-- Binary search for the integer cube root, driven by fuel. -/
def icbrtAux (n : Nat) : Nat → Nat → Nat → Nat
  | 0, lo, _ => lo
  | fuel + 1, lo, hi =>
    if lo + 1 ≥ hi then lo
    else
      let mid := (lo + hi) / 2
      if mid ^ 3 ≤ n then icbrtAux n fuel mid hi else icbrtAux n fuel lo mid

/-- Largest `m` with `m ^ 3 ≤ n`. -/
def icbrt (n : Nat) : Nat := icbrtAux n 400 0 (n + 2)

/-- First 80 prime numbers, source of the SHA-512 round constants. -/
def first80Primes : List Nat :=
  [2, 3, 5, 7, 11, 13, 17, 19, 23, 29, 31, 37, 41, 43, 47, 53, 59, 61, 67, 71,
   73, 79, 83, 89, 97, 101, 103, 107, 109, 113, 127, 131, 137, 139, 149, 151,
   157, 163, 167, 173, 179, 181, 191, 193, 197, 199, 211, 223, 227, 229, 233,
   239, 241, 251, 257, 263, 269, 271, 277, 281, 283, 293, 307, 311, 313, 317,
   331, 337, 347, 349, 353, 359, 367, 373, 379, 383, 389, 397, 401, 409]

/-- SHA-512 round constants: the first 64 bits of the fractional parts
of the cube roots of the first 80 primes. -/
def sha512K : List Nat :=
  first80Primes.map (fun p => icbrt (p * 2 ^ 192) % 2 ^ 64)

/-- SHA-512 initial hash value: the first 64 bits of the fractional
parts of the square roots of the first 8 primes. -/
def sha512H0 : List Nat :=
  [2, 3, 5, 7, 11, 13, 17, 19].map (fun p => Nat.sqrt (p * 2 ^ 128) % 2 ^ 64)

/-- Rotate a 64-bit word right by `n` bits. -/
def rotr64 (x n : Nat) : Nat :=
  (x >>> n) ||| ((x <<< (64 - n)) % 18446744073709551616)

/-- SHA-512 big sigma-0. -/
def sigma0 (a : Nat) : Nat := rotr64 a 28 ^^^ rotr64 a 34 ^^^ rotr64 a 39

/-- SHA-512 big sigma-1. -/
def sigma1 (e : Nat) : Nat := rotr64 e 14 ^^^ rotr64 e 18 ^^^ rotr64 e 41

/-- SHA-512 small sigma-0 (message schedule). -/
def ssigma0 (x : Nat) : Nat := rotr64 x 1 ^^^ rotr64 x 8 ^^^ (x >>> 7)

/-- SHA-512 small sigma-1 (message schedule). -/
def ssigma1 (x : Nat) : Nat := rotr64 x 19 ^^^ rotr64 x 61 ^^^ (x >>> 6)

/-- SHA-512 padding: append `0x80`, zeros up to 112 mod 128, then the
bit length on 16 big-endian bytes. -/
def sha512Pad (msg : List Nat) : List Nat :=
  msg ++ [128] ++ List.replicate ((239 - msg.length % 128) % 128) 0 ++ beBytes 16 (msg.length * 8)

/-- Extend a 16-word SHA-512 block schedule by `fuel` more words. -/
def sha512Extend : Nat → List Nat → List Nat
  | 0, ws => ws
  | fuel + 1, ws =>
    let n := ws.length
    let w := (ws.getD (n - 16) 0 + ssigma0 (ws.getD (n - 15) 0) +
              ws.getD (n - 7) 0 + ssigma1 (ws.getD (n - 2) 0)) % 18446744073709551616
    sha512Extend fuel (ws ++ [w])

/-- Compress one 128-byte block into the running SHA-512 state (a list
of eight 64-bit words). -/
def sha512Compress (h : List Nat) (block : List Nat) : List Nat :=
  let ws := sha512Extend 64 ((chunks 8 block).map beWord)
  let st := (List.range 80).foldl
    (fun (st : List Nat) i =>
      let a := st.getD 0 0
      let b := st.getD 1 0
      let c := st.getD 2 0
      let d := st.getD 3 0
      let e := st.getD 4 0
      let f := st.getD 5 0
      let g := st.getD 6 0
      let hh := st.getD 7 0
      let t1 := (hh + sigma1 e + ((e &&& f) ^^^ ((e ^^^ 18446744073709551615) &&& g)) +
                 sha512K.getD i 0 + ws.getD i 0) % 18446744073709551616
      let t2 := (sigma0 a + ((a &&& b) ^^^ (a &&& c) ^^^ (b &&& c))) % 18446744073709551616
      [(t1 + t2) % 18446744073709551616, a, b, c, (d + t1) % 18446744073709551616, e, f, g])
    h
  List.zipWith (fun x y => (x + y) % 18446744073709551616) h st

/-- SHA-512 digest (64 bytes) of a byte string, as computed by
`hashlib.sha512` over the streamed file content. -/
def sha512Bytes (msg : List Nat) : List Nat :=
  (((chunks 128 (sha512Pad msg)).foldl sha512Compress sha512H0).map (beBytes 8)).flatten

/-! ## JSON values and the integrity verifier -/

/-- JSON values, as produced by `json.loads` (numbers restricted to
integers, which covers every value the pipeline inspects). -/
inductive JVal where
  | jnull
  | jbool (b : Bool)
  | jnum (n : Int)
  | jstr (s : String)
  | jarr (xs : List JVal)
  | jobj (fields : List (String × JVal))

/-- Python truthiness of a JSON value (`if integrity:` and friends). -/
def pyTruthy : JVal → Bool
  | JVal.jnull => false
  | JVal.jbool b => b
  | JVal.jnum n => n ≠ 0
  | JVal.jstr s => s ≠ ""
  | JVal.jarr xs => ¬ xs.isEmpty
  | JVal.jobj fields => ¬ fields.isEmpty

/-- The four failure modes of `verify_tgz`, one per `raise` site:
`invalidIntegrity` is "Invalid integrity: ...", `unsupportedAlgorithm`
is "Unsupported integrity algorithm: ...", `integrityMismatch` is
"Integrity verification failed for npm tarball", and `shasumMismatch`
is "SHA1 verification failed for npm tarball". -/
inductive VerifyErr where
  | invalidIntegrity
  | unsupportedAlgorithm
  | integrityMismatch
  | shasumMismatch
deriving DecidableEq, Repr

/-- Parsing of the integrity descriptor — the body of the first `try`
block of `verify_tgz`: `algo, b64digest = integrity.split("-", 1)`,
`algo = algo.lower()`, `expected = base64.b64decode(b64digest)`.  Any
exception there (`ValueError` from unpacking a separator-less string,
`binascii.Error`/`ValueError` from the base64 decoder) is mapped by the
source to the "Invalid integrity" error. -/
def parseIntegrity (s : String) : Except Unit (String × List Nat) :=
  match pySplitOnce '-' s with
  | none => Except.error ()
  | some (algoRaw, b64digest) =>
    match b64decode b64digest with
    | Except.error _ => Except.error ()
    | Except.ok expected => Except.ok (pyLower algoRaw, expected)

/-- Model of `getattr(hashlib, algo)`: the digest algorithms the
pipeline can meet.  npm publishes `sha512` subresource-integrity
descriptors and `sha1` legacy checksums, and those two constructors are
modelled in full; every other attribute name is mapped to "unsupported"
(for names such as `sha256` this under-approximates `hashlib`, and no
theorem below depends on them). -/
def hashlibFn (algo : String) : Option (List Nat → List Nat) :=
  if algo = "sha1" then some sha1Bytes
  else if algo = "sha512" then some sha512Bytes
  else none

/-- Embedding of `verify_tgz(tgz_path, integrity, shasum)` from
`src/vercel_cli/vendor_update.py`.  `fileBytes` is the streamed content
of the tarball (the 1 MiB chunking of the source reads the whole file).
`integrity` and `shasum` are the JSON values the orchestrator passes:
a falsy value skips its branch; a truthy non-string `integrity` raises
`AttributeError` inside the `try`, caught as "Invalid integrity"; a
truthy non-string `shasum` makes `hexdigest() != shasum` true, raising
the SHA-1 mismatch. -/
def verify_tgz (fileBytes : List Nat) (integrity shasum : JVal) : Except VerifyErr Unit :=
  if pyTruthy integrity then
    match integrity with
    | JVal.jstr s =>
      (match parseIntegrity s with
       | Except.error _ => Except.error VerifyErr.invalidIntegrity
       | Except.ok (algo, expected) =>
         match hashlibFn algo with
         | none => Except.error VerifyErr.unsupportedAlgorithm
         | some digest =>
           if digest fileBytes = expected then Except.ok ()
           else Except.error VerifyErr.integrityMismatch)
    | _ => Except.error VerifyErr.invalidIntegrity
  else if pyTruthy shasum then
    match shasum with
    | JVal.jstr s =>
      if sha1Hex fileBytes = s then Except.ok () else Except.error VerifyErr.shasumMismatch
    | _ => Except.error VerifyErr.shasumMismatch
  else
    Except.ok ()

set_option maxRecDepth 100000 in
example :
    verify_tgz [] (JVal.jstr "sha1-2jmj7l5rSw0yVb/vlWAYkK/YBwk=") JVal.jnull = Except.ok () := by
  decide

set_option maxRecDepth 100000 in
example :
    verify_tgz [] JVal.jnull (JVal.jstr "da39a3ee5e6b4b0d3255bfef95601890afd80709") =
      Except.ok () := by decide

example : verify_tgz [1] (JVal.jstr "sha512") JVal.jnull = Except.error VerifyErr.invalidIntegrity := by decide
example : verify_tgz [1] (JVal.jstr "foo-AAAA") JVal.jnull = Except.error VerifyErr.unsupportedAlgorithm := by decide
example : verify_tgz [1] JVal.jnull JVal.jnull = Except.ok () := by decide

/-! ## Manifest sanitizer -/

/-- The fixed allow-list `ALLOWED_RUNTIME_DEPENDENCIES`. -/
def ALLOWED_RUNTIME_DEPENDENCIES : List String :=
  ["@vercel/build-utils", "@vercel/detect-agent", "@vercel/python"]

/-- Model of `dict.pop(k, None)`: drop the entry with key `k`. -/
def popKey (k : String) (l : List (String × JVal)) : List (String × JVal) :=
  l.filter (fun p => decide (p.1 ≠ k))

/-- Model of `dict.get(k)` / `dict[k]` lookup: value of the entry with
key `k`. -/
def getKey (k : String) (l : List (String × JVal)) : Option JVal :=
  (l.find? (fun p => decide (p.1 = k))).map (fun p => p.2)

/-- Model of `d[k] = v` on a Python dict: update the value in place when
the key is present, append the pair otherwise. -/
def setKey (k : String) (v : JVal) (l : List (String × JVal)) : List (String × JVal) :=
  if l.any (fun p => decide (p.1 = k)) then
    l.map (fun p => if p.1 = k then (k, v) else p)
  else
    l ++ [(k, v)]

/-- Model of `dict(pairs)`: build a dict by inserting the pairs left to
right (later occurrences of a key overwrite the value in place). -/
def pyDict (pairs : List (String × JVal)) : List (String × JVal) :=
  pairs.foldl (fun acc p => setKey p.1 p.2 acc) []

/-- Ordered insertion with respect to the Python string order (code
point lexicographic). -/
def strLeChars : List Char → List Char → Bool
  | [], _ => true
  | _ :: _, [] => false
  | a :: as, b :: bs => if a = b then strLeChars as bs else decide (a.toNat < b.toNat)

/-- Python string comparison `a <= b` (lexicographic on code points). -/
def pyStrLe (a b : String) : Bool := strLeChars a.data b.data

/-- Insert a string into a sorted list of strings. -/
def insortStr (x : String) : List String → List String
  | [] => [x]
  | y :: ys => if pyStrLe x y then x :: y :: ys else y :: insortStr x ys

/-- Model of Python `sorted(keys)` on strings (insertion sort; on the
duplicate-free key lists of a dict this is the unique sorted
permutation that `sorted` returns). -/
def pySorted (l : List String) : List String := l.foldr insortStr []

/-- Embedding of `sanitize_package_data(pkg_data)` from
`src/vercel_cli/vendor_update.py`, on the field list of the manifest
object.  `dict(data.get("dependencies", {}))` succeeds on a JSON object
(its usual shape) and raises `TypeError` for the other JSON values, the
`Except.error` case. -/
def sanitize_package_data (pkg_data : List (String × JVal)) :
    Except Unit (List (String × JVal)) :=
  let data := popKey "workspaces" (popKey "pnpm" (popKey "packageManager"
    (popKey "devDependencies" pkg_data)))
  match (getKey "dependencies" data).getD (JVal.jobj []) with
  | JVal.jobj pairs =>
    let original_deps := pyDict pairs
    let filtered_deps := original_deps.filter
      (fun p => ALLOWED_RUNTIME_DEPENDENCIES.contains p.1)
    let sortedKeys := pySorted (filtered_deps.map (fun p => p.1))
    let newDeps := sortedKeys.filterMap
      (fun k => (getKey k filtered_deps).map (fun v => (k, v)))
    Except.ok (setKey "dependencies" (JVal.jobj newDeps) data)
  | _ => Except.error ()

example :
    sanitize_package_data
      [("name", JVal.jstr "vercel"), ("version", JVal.jstr "0.0.0"),
       ("dependencies", JVal.jobj
         [("@vercel/python", JVal.jstr "5.0.0"), ("@vercel/node", JVal.jstr "5.3.17"),
          ("@vercel/build-utils", JVal.jstr "11.0.2"),
          ("@vercel/detect-agent", JVal.jstr "0.2.0"),
          ("chokidar", JVal.jstr "4.0.0"), ("jose", JVal.jstr "5.9.6")]),
       ("devDependencies", JVal.jobj [("typescript", JVal.jstr "4.9.5")]),
       ("packageManager", JVal.jstr "pnpm@9"), ("pnpm", JVal.jobj []),
       ("workspaces", JVal.jarr [JVal.jstr "packages/*"])] =
    Except.ok
      [("name", JVal.jstr "vercel"), ("version", JVal.jstr "0.0.0"),
       ("dependencies", JVal.jobj
         [("@vercel/build-utils", JVal.jstr "11.0.2"),
          ("@vercel/detect-agent", JVal.jstr "0.2.0"),
          ("@vercel/python", JVal.jstr "5.0.0")])] := rfl

example :
    sanitize_package_data [("name", JVal.jstr "x")] =
      Except.ok [("name", JVal.jstr "x"), ("dependencies", JVal.jobj [])] := rfl

example :
    sanitize_package_data [("dependencies", JVal.jstr "oops")] = Except.error () := rfl

/-! ## Vendor orchestrator -/

/-- Failure categories of `update_vendor`, one per raising call in the
sequence: a registry error from `npm_view` (bad JSON), a pack failure
from `npm_pack`, a `KeyError`/`TypeError` from the `metadata["dist"]`
subscripts, a verification failure, a `tarfile` error opening the
tarball, a manifest error (only ever caught), and an install failure. -/
inductive UErr where
  | registry
  | packFail
  | keyError
  | typeError
  | verify (e : VerifyErr)
  | tarError
  | manifest
  | install
deriving DecidableEq, Repr

/-- Model of Python's `metadata["dist"]` subscript on a JSON value:
`KeyError` when the key is missing from an object, `TypeError` when the
value is not an object. -/
def jGet (v : JVal) (k : String) : Except UErr JVal :=
  match v with
  | JVal.jobj fields =>
    match getKey k fields with
    | some x => Except.ok x
    | none => Except.error UErr.keyError
  | _ => Except.error UErr.typeError

/-- External collaborators of `update_vendor`, bound at the exact call
sites where the source invokes them: the result of `npm_view(version)`
(JSON or a raised error), the result of `npm_pack` (the bytes of the
produced tarball or a raised `RuntimeError`), `tarfile.open` +
`getmembers` on those bytes, the `json.loads`/`json.dumps` pair used on
`package.json`, and the effect of the production `npm install` on the
working tree (or its raised failure). -/
structure Env where
  viewResult : Except UErr JVal
  packResult : Except UErr (List Nat)
  parseTar : List Nat → Except UErr (List TarMember)
  parseJson : List Nat → Except UErr JVal
  dumps : JVal → List Nat
  installResult : Except UErr (Fs → Fs)

/-- The manifest-sanitization step of `update_vendor` — the body of its
`try` block: read `work_dir / "package.json"`, parse it, sanitize it,
and write it back deterministically (preserving the file's mode).  Any
failure is reported to the caller, which catches it. -/
def manifest_step (env : Env) (work : Fs) : Except UErr Fs :=
  match lookupFs work ["package.json"] with
  | some (FsEntry.file content mode) =>
    (match env.parseJson content with
     | Except.error e => Except.error e
     | Except.ok (JVal.jobj fields) =>
       (match sanitize_package_data fields with
        | Except.ok fields2 =>
          Except.ok (updEntry work ["package.json"]
            (FsEntry.file (env.dumps (JVal.jobj fields2)) mode))
        | Except.error _ => Except.error UErr.manifest)
     | Except.ok _ => Except.error UErr.manifest)
  | _ => Except.error UErr.manifest

/-- The `try`/`except` wrapper around the manifest step: a failure is
logged and the working tree is left as it was. -/
def sanitize_step (env : Env) (work : Fs) : Fs :=
  match manifest_step env work with
  | Except.ok w => w
  | Except.error _ => work

/-- The working tree produced inside the temporary directory by steps
1–6 of `update_vendor` (everything before the destination is touched):
resolve metadata, pack, verify with `metadata["dist"]["integrity"]` and
`metadata["dist"]["shasum"]`, extract into `work_dir`, best-effort
manifest sanitization, production dependency install. -/
def workResult (env : Env) : Except UErr Fs :=
  match env.viewResult with
  | Except.error e => Except.error e
  | Except.ok metadata =>
    match env.packResult with
    | Except.error e => Except.error e
    | Except.ok tgz =>
      match jGet metadata "dist" with
      | Except.error e => Except.error e
      | Except.ok dist =>
        match jGet dist "integrity", jGet dist "shasum" with
        | Except.error e, _ => Except.error e
        | _, Except.error e => Except.error e
        | Except.ok integrity, Except.ok shasum =>
          match verify_tgz tgz integrity shasum with
          | Except.error e => Except.error (UErr.verify e)
          | Except.ok () =>
            match env.parseTar tgz with
            | Except.error e => Except.error e
            | Except.ok members =>
              let work := sanitize_step env (applyOps (extract_tgz members) [])
              match env.installResult with
              | Except.error e => Except.error e
              | Except.ok install => Except.ok (install work)

/-- The destination-clearing loop of `update_vendor`: every child of
the vendor directory except `.gitkeep` is removed (`shutil.rmtree` for
directories removes their whole subtree, hence the filter on the first
path segment). -/
def clearVendor (dest : Fs) : Fs :=
  dest.filter (fun e => decide (e.1.head? = some ".gitkeep"))

/-- Model of `shutil.copytree(work_dir, VENDOR_DIR, dirs_exist_ok=True)`:
every entry of the working tree is written over the destination. -/
def copyTreeInto (dest work : Fs) : Fs :=
  work.foldl (fun acc w => updEntry acc w.1 w.2) dest

/-- The destination-replacement step (the last lines of
`update_vendor`): clear everything but the keep-marker, then copy the
working tree in. -/
def replaceVendor (dest work : Fs) : Fs :=
  copyTreeInto (clearVendor dest) work

/-- Embedding of `update_vendor(version)`: run steps 1–6 inside the
temporary directory; any raised error propagates with the destination
untouched, and on success the destination is cleared and repopulated
from the working tree.  The result pairs the outcome with the final
state of the vendor directory. -/
def update_vendor (env : Env) (vendor0 : Fs) : Except UErr Unit × Fs :=
  match workResult env with
  | Except.error e => (Except.error e, vendor0)
  | Except.ok work => (Except.ok (), replaceVendor vendor0 work)

/-! ## Check front ends -/

/-- Embedding of `cmd_check(args)` from `src/vercel_cli/vendor_cli.py`,
given the values the collaborators return: the currently vendored
version, the resolved latest version (empty when the registry provided
none).  Returns the exit code, whether `update_vendor` was invoked, and
the GitHub-outputs lines written. -/
def cmd_check (vendorFlag githubOutputs : Bool) (current latest : String) :
    Nat × Bool × List (String × String) :=
  if latest ≠ "" ∧ latest ≠ current then
    (0, vendorFlag, if githubOutputs then [("updated", "true"), ("new_version", latest)] else [])
  else
    (0, false, if githubOutputs then [("updated", "false")] else [])

/-- Embedding of `main()` from `src/scripts/check_and_update.py`, given
the currently vendored version, the resolved latest version, and the
version read back from the destination manifest after the update ran.
Returns the exit code and the GitHub-outputs lines written. -/
def check_and_update_main (current latest reread : String) :
    Nat × List (String × String) :=
  if latest = "" then (1, [("updated", "false")])
  else if current = latest then (0, [("updated", "false")])
  else if reread ≠ latest then (1, [("updated", "false")])
  else (0, [("updated", "true"), ("new_version", latest)])

/-! ## Claims about the archive safety layer -/

/-- Parts of the concrete target path `dest / rel_path` returned by
`safe_target_path`, for a destination with the given parts. -/
def targetParts (dest rel : List String) : List String := dest ++ rel

/-- C2, counterexample: the member name `package/./` is accepted by
`resolve safe target path` (its remainder `./` is neither empty nor
`.` as a string, and `pathlib` collapses it to no segments at all), and
the returned path is the destination root itself — not strictly inside
it. -/
theorem c2_counterexample :
    safe_target_path "package/./" = some [] ∧
    targetParts ["vendor"] [] = ["vendor"] := by decide

/-- C2, amended: every accepted member resolves to a path that cannot
escape the destination root — none of its segments is empty, `.` or
`..`, so joining them under the root stays under the root — but the
path is not always strictly inside the root: for names whose remainder
normalizes to no segments (such as `package/./`) the returned path is
the destination root itself. -/
theorem c2_amended : ∀ (name : String) (parts : List String),
    safe_target_path name = some parts →
    ∀ s ∈ parts, s ≠ "" ∧ s ≠ "." ∧ s ≠ ".." := by
  intro name parts h s hs
  simp only [safe_target_path] at h
  split_ifs at h with h1 h2 h3 h4
  have hparts : pySegments (String.mk (name.data.drop 8)) = parts := by
    exact Option.some.inj h
  rw [← hparts] at hs
  have hmem := hs
  simp only [pySegments, List.mem_filter, Bool.and_eq_true, decide_eq_true_eq] at hmem
  obtain ⟨hsp, hne, hnd⟩ := hmem
  have hnotany : ∀ x ∈ pySegments (String.mk (name.data.drop 8)),
      ¬(decide (pyStrip x ≠ x) || decide (pyStrip x = ".") || decide (pyStrip x = "..")) = true := by
    intro x hx hpred
    exact h4 (List.any_eq_true.mpr ⟨x, hx, hpred⟩)
  have hpred := hnotany s hs
  simp only [Bool.or_eq_true, decide_eq_true_eq, not_or] at hpred
  obtain ⟨⟨hstrip, _⟩, hdd⟩ := hpred
  refine ⟨hne, hnd, ?_⟩
  intro hcontra
  apply hdd
  rw [hcontra] at hstrip ⊢
  by_contra hne2
  exact hstrip hne2

/-- C2, witness for the amended theorem at the member
`package/a/b.js`. -/
theorem c2_witness : ("a" : String) ≠ "" ∧ ("a" : String) ≠ "." ∧ ("a" : String) ≠ ".." :=
  c2_amended "package/a/b.js" ["a", "b.js"] (by decide) "a" (by decide)

/-- C3, counterexample: the member name `package/a/./b` has a raw `.`
segment in its relative path, yet `resolve safe target path` accepts it
(pathlib normalizes the `.` away before the segment checks run) instead
of returning reject. -/
theorem c3_counterexample :
    (pySplitChar '/' "a/./b").contains "." = true ∧
    safe_target_path "package/a/./b" = some ["a", "b"] := by decide

/-- C3, amended: a member name whose relative path has a raw `..`
segment, or any raw segment with leading or trailing whitespace, is
rejected; raw `.` segments however are collapsed by path normalization
and do not cause rejection. -/
theorem c3_amended : ∀ (name : String),
    pyStartsWith "package/" name = true →
    ((".." ∈ pySplitChar '/' (String.mk (name.data.drop 8))) ∨
      ∃ s ∈ pySplitChar '/' (String.mk (name.data.drop 8)), pyStrip s ≠ s) →
    safe_target_path name = none := by
  intro name hstart hbad
  simp only [safe_target_path, hstart, not_true, if_false]
  split_ifs with h2 h3 h4
  · rfl
  · rfl
  · rfl
  exfalso
  apply h4
  apply List.any_eq_true.mpr
  rcases hbad with hdd | ⟨s, hsmem, hstrip⟩
  · refine ⟨"..", ?_, by decide⟩
    simp only [pySegments, List.mem_filter, Bool.and_eq_true, decide_eq_true_eq]
    exact ⟨hdd, by decide, by decide⟩
  · refine ⟨s, ?_, ?_⟩
    · have hne : s ≠ "" := by
        intro hc; rw [hc] at hstrip; exact hstrip rfl
      have hnd : s ≠ "." := by
        intro hc; rw [hc] at hstrip; exact hstrip rfl
      simp only [pySegments, List.mem_filter, Bool.and_eq_true, decide_eq_true_eq]
      exact ⟨hsmem, hne, hnd⟩
    · simp only [Bool.or_eq_true, decide_eq_true_eq]
      exact Or.inl (Or.inl hstrip)

/-- C3, witness for the amended theorem at the member
`package/a/../b`. -/
theorem c3_witness : safe_target_path "package/a/../b" = none :=
  c3_amended "package/a/../b" (by decide) (Or.inl (by decide))

/-- Helper: no operation emitted for a single member is a link
creation. -/
theorem member_ops_not_link : ∀ (m : TarMember) (op : FsOp),
    op ∈ member_ops m → isLinkOp op = false := by
  intro m op h
  unfold member_ops at h
  split_ifs at h with hl
  · simp at h
  · split at h
    · simp at h
    · unfold extract_member at h
      split at h
      · simp only [List.mem_singleton] at h
        subst h; rfl
      · simp only [List.mem_cons, List.mem_singleton, List.not_mem_nil, or_false] at h
        rcases h with h | h <;> (subst h; rfl)
      · simp at h

/-- Helper: no operation of a whole extraction is a link creation. -/
theorem extract_tgz_not_link : ∀ (members : List TarMember) (op : FsOp),
    op ∈ extract_tgz members → isLinkOp op = false := by
  intro ms op h
  unfold extract_tgz at h
  rcases List.mem_cons.mp h with h | h
  · subst h; rfl
  · obtain ⟨l, hl, hop⟩ := List.mem_flatten.mp h
    obtain ⟨m, _, rfl⟩ := List.mem_map.mp hl
    exact member_ops_not_link m op hop

/-- Helper: the directory-creating fold of `mkdirP` preserves
link-freeness. -/
theorem noLinks_mkdirFold : ∀ (qs : List (List String)) (fs : Fs),
    noLinksFs fs = true →
    noLinksFs (qs.foldl
      (fun acc q => if acc.any (fun r => decide (r.1 = q)) then acc else acc ++ [(q, FsEntry.dir)])
      fs) = true := by
  intro qs
  induction qs with
  | nil => intro fs h; exact h
  | cons q qs ih =>
    intro fs h
    simp only [List.foldl_cons]
    apply ih
    split_ifs
    · exact h
    · simp only [noLinksFs, List.all_append, Bool.and_eq_true] at h ⊢
      exact ⟨h, by rfl⟩

/-- Helper: updating an entry with a non-link value preserves
link-freeness. -/
theorem noLinks_updEntry : ∀ (fs : Fs) (p : List String) (e : FsEntry),
    entryNonLink e = true → noLinksFs fs = true →
    noLinksFs (updEntry fs p e) = true := by
  intro fs p e he h
  unfold updEntry
  split_ifs
  · simp only [noLinksFs, List.all_eq_true] at h ⊢
    intro x hx
    obtain ⟨y, hy, rfl⟩ := List.mem_map.mp hx
    by_cases hc : y.1 = p
    · simp only [hc, if_true]
      exact he
    · simp only [hc, if_false]
      exact h y hy
  · simp only [noLinksFs, List.all_append, Bool.and_eq_true] at h ⊢
    exact ⟨h, by simp [he]⟩

/-- Helper: applying any list of non-link operations preserves
link-freeness of the destination. -/
theorem noLinks_applyOps : ∀ (ops : List FsOp) (fs : Fs),
    (∀ op ∈ ops, isLinkOp op = false) → noLinksFs fs = true →
    noLinksFs (applyOps ops fs) = true := by
  intro ops
  induction ops with
  | nil => intro fs _ h; exact h
  | cons op ops ih =>
    intro fs hop h
    simp only [applyOps, List.foldl_cons]
    apply ih _ (fun o ho => hop o (List.mem_cons_of_mem _ ho))
    have hnl := hop op (List.mem_cons_self _ _)
    cases op with
    | mkdirP p => exact noLinks_mkdirFold _ fs h
    | writeFile p c m => exact noLinks_updEntry fs p _ rfl h
    | mkSymlink p t => simp [isLinkOp] at hnl
    | mkHardlink p t => simp [isLinkOp] at hnl

/-- C1: `extract archive` never creates a symbolic or hard link in the
destination.  Every link-type member contributes no operation at all,
whatever its link target or name; no operation of an extraction is a
link creation; and a destination holding no link entry still holds no
link entry after the extraction is applied to it. -/
theorem c1_no_links (members : List TarMember) (fs0 : Fs) :
    (∀ m ∈ members, isLinkMember m = true → member_ops m = []) ∧
    (∀ op ∈ extract_tgz members, isLinkOp op = false) ∧
    (noLinksFs fs0 = true → noLinksFs (applyOps (extract_tgz members) fs0) = true) := by
  refine ⟨?_, extract_tgz_not_link members, ?_⟩
  · intro m _ hl
    unfold member_ops
    simp [hl]
  · exact noLinks_applyOps _ fs0 (extract_tgz_not_link members)

/-- Archive of the spec's scenario: a safe regular file plus a symlink
pointing outside the destination. -/
def scenarioMembers : List TarMember :=
  [⟨"package/index.js", FType.reg, "", [99, 111, 110], 420⟩,
   ⟨"package/link", FType.sym, "../outside", [], 0⟩]

/-- C1, witness: the scenario archive's symlink member contributes
nothing and the extracted destination is link-free. -/
theorem c1_witness :
    member_ops ⟨"package/link", FType.sym, "../outside", [], 0⟩ = [] ∧
    noLinksFs (applyOps (extract_tgz scenarioMembers) []) = true :=
  ⟨(c1_no_links scenarioMembers []).1 ⟨"package/link", FType.sym, "../outside", [], 0⟩
      (by decide) (by decide),
   (c1_no_links scenarioMembers []).2.2 (by decide)⟩

/-- C10: a member that is neither a regular file, a directory nor a
link — a FIFO or a device node — is materialized by nothing: even when
its name is accepted by `safe_target_path`, neither the extraction loop
nor `_extract_member` emits any filesystem operation for it. -/
theorem c10_special_members (m : TarMember) (target : List String)
    (hty : m.ftype = FType.fifo ∨ m.ftype = FType.chrdev ∨ m.ftype = FType.blkdev)
    (hsafe : safe_target_path m.name = some target) :
    member_ops m = [] ∧ extract_member m target = [] := by
  have hext : extract_member m target = [] := by
    rcases hty with h | h | h <;> simp [extract_member, h]
  refine ⟨?_, hext⟩
  unfold member_ops
  have hnl : isLinkMember m = false := by
    rcases hty with h | h | h <;> simp [isLinkMember, h]
  rw [if_neg (by simp [hnl]), hsafe]
  rcases hty with h | h | h <;> simp [extract_member, h]

/-- C10, witness: a FIFO member with an accepted safe name. -/
theorem c10_witness :
    member_ops ⟨"package/fifo", FType.fifo, "", [], 0⟩ = [] ∧
    extract_member ⟨"package/fifo", FType.fifo, "", [], 0⟩ ["fifo"] = [] :=
  c10_special_members ⟨"package/fifo", FType.fifo, "", [], 0⟩ ["fifo"]
    (Or.inl rfl) (by decide)

/-! ## Claims about the integrity verifier -/

/-- Spec-side notion (following the spec's words, for stating C6): a
string is valid base64 when its length is a multiple of four and it is
a run of alphabet characters followed by at most two `=` padding
characters. -/
def specValidBase64 (s : String) : Bool :=
  let cs := s.data
  let pad := (cs.reverse.takeWhile (fun c => c = '=')).length
  decide (cs.length % 4 = 0) && decide (pad ≤ 2) &&
    (cs.take (cs.length - pad)).all (fun c => (b64CharVal c).isSome)

example : specValidBase64 "AA==" = true := by decide
example : specValidBase64 "QUJD" = true := by decide
example : specValidBase64 "!!!!" = false := by decide

set_option maxRecDepth 100000 in
/-- C6, counterexample: the integrity string `sha1-!!!!` has a
well-formed separator but a digest part that is not valid base64; yet
`verify archive` does not raise the invalid-descriptor error — the
lenient stdlib decoder discards the non-alphabet characters, decodes
the digest to the empty byte string, and verification proceeds to the
digest comparison, raising the digest-mismatch error instead. -/
theorem c6_counterexample :
    pySplitOnce '-' "sha1-!!!!" = some ("sha1", "!!!!") ∧
    specValidBase64 "!!!!" = false ∧
    verify_tgz [] (JVal.jstr "sha1-!!!!") JVal.jnull =
      Except.error VerifyErr.integrityMismatch := by decide

/-- C6, amended: for every non-empty integrity string that lacks the
separator, or whose digest part the lenient stdlib base64 decoder
rejects (bad padding or non-ASCII input), `verify archive` raises the
invalid-descriptor error, for every file content; digest parts that the
lenient decoder accepts (even ones that are not valid base64, such as
`!!!!`) instead proceed to the digest comparison.  An empty integrity
string is falsy and is treated as absent. -/
theorem c6_amended (s : String) (fileBytes : List Nat) (shasum : JVal) :
    s ≠ "" →
    (pySplitOnce '-' s = none ∨
      ∃ a b, pySplitOnce '-' s = some (a, b) ∧ b64decode b = Except.error ()) →
    verify_tgz fileBytes (JVal.jstr s) shasum = Except.error VerifyErr.invalidIntegrity := by
  intro hne hbad
  have htruthy : pyTruthy (JVal.jstr s) = true := by
    simp [pyTruthy, hne]
  have hparse : parseIntegrity s = Except.error () := by
    unfold parseIntegrity
    rcases hbad with hnone | ⟨a, b, hsplit, hdec⟩
    · simp only [hnone]
    · simp only [hsplit, hdec]
  unfold verify_tgz
  rw [if_pos htruthy]
  simp only [hparse]

/-- C6, witness for the amended theorem: the separator-less integrity
string of the repository's own test (`sha512`). -/
theorem c6_witness :
    verify_tgz [] (JVal.jstr "sha512") JVal.jnull =
      Except.error VerifyErr.invalidIntegrity :=
  c6_amended "sha512" [] JVal.jnull (by decide) (Or.inl (by decide))

/-- Spec-side notion (following the spec's words, for stating C7):
case-insensitive equality of hex strings. -/
def specHexEqCaseless (a b : String) : Bool := pyLower a = pyLower b

set_option maxRecDepth 1000000 in
/-- C7, counterexample: the uppercase rendering of the correct legacy
digest of the empty file is equal to the computed digest up to letter
case, yet `verify archive` raises the checksum-verification-failed
error — the source compares `hexdigest() != shasum` case-sensitively,
and `hexdigest()` is lowercase. -/
theorem c7_counterexample :
    specHexEqCaseless (sha1Hex []) "DA39A3EE5E6B4B0D3255BFEF95601890AFD80709" = true ∧
    verify_tgz [] JVal.jnull (JVal.jstr "DA39A3EE5E6B4B0D3255BFEF95601890AFD80709") =
      Except.error VerifyErr.shasumMismatch := by decide

/-- C7, amended: with no integrity descriptor, verification against a
`shasum` string succeeds exactly when the string is the lowercase
hexadecimal digest of the file (byte-for-byte, hence case-sensitive) or
is empty (falsy, treated as absent); every other string — including the
correct digest in different letter case — raises the
checksum-verification-failed error. -/
theorem c7_amended (fileBytes : List Nat) (s : String) :
    verify_tgz fileBytes JVal.jnull (JVal.jstr s) =
      (if s = "" ∨ s = sha1Hex fileBytes then Except.ok ()
       else Except.error VerifyErr.shasumMismatch) := by
  unfold verify_tgz
  rw [if_neg (by simp [pyTruthy])]
  by_cases hs : s = ""
  · subst hs
    rw [if_neg (by simp [pyTruthy]), if_pos (Or.inl rfl)]
  · rw [if_pos (by simp [pyTruthy, hs])]
    show (if sha1Hex fileBytes = s then Except.ok () else Except.error VerifyErr.shasumMismatch) = _
    by_cases heq : sha1Hex fileBytes = s
    · rw [if_pos heq, if_pos (Or.inr heq.symm)]
    · have hcond : ¬(s = "" ∨ s = sha1Hex fileBytes) := by
        rintro (h | h)
        · exact hs h
        · exact heq h.symm
      rw [if_neg heq, if_neg hcond]

/-! ## Claims about the manifest sanitizer -/

/-- Helper: `Char.toNat` is injective. -/
theorem char_toNat_inj : ∀ a b : Char, a.toNat = b.toNat → a = b := by
  intro a b h
  apply Char.ext
  exact UInt32.ext h

/-- Helper: the Python string order is total. -/
theorem strLeChars_total : ∀ as bs : List Char,
    strLeChars as bs = true ∨ strLeChars bs as = true := by
  intro as
  induction as with
  | nil => intro bs; exact Or.inl rfl
  | cons a as ih =>
    intro bs
    cases bs with
    | nil => exact Or.inr rfl
    | cons b bs =>
      by_cases hab : a = b
      · subst hab
        rcases ih bs with h | h
        · exact Or.inl (by simp [strLeChars, h])
        · exact Or.inr (by simp [strLeChars, h])
      · have hne : a.toNat ≠ b.toNat := fun hc => hab (char_toNat_inj a b hc)
        rcases Nat.lt_or_ge a.toNat b.toNat with hlt | hge
        · exact Or.inl (by simp [strLeChars, hab, hlt])
        · have hlt : b.toNat < a.toNat := Nat.lt_of_le_of_ne hge (fun hc => hne hc.symm)
          have hba : b ≠ a := Ne.symm hab
          refine Or.inr ?_
          simp only [strLeChars, if_neg hba]
          rw [decide_eq_true_eq]
          exact hlt

/-- Helper: the Python string order is transitive. -/
theorem strLeChars_trans : ∀ as bs cs : List Char,
    strLeChars as bs = true → strLeChars bs cs = true → strLeChars as cs = true := by
  intro as
  induction as with
  | nil => intro bs cs _ _; rfl
  | cons a as ih =>
    intro bs cs hab hbc
    cases bs with
    | nil => simp [strLeChars] at hab
    | cons b bs =>
      cases cs with
      | nil => simp [strLeChars] at hbc
      | cons c cs =>
        by_cases h1 : a = b
        · subst h1
          by_cases h2 : a = c
          · subst h2
            simp only [strLeChars, if_pos rfl] at hab hbc ⊢
            exact ih bs cs hab hbc
          · simp only [strLeChars, if_pos rfl] at hab
            simp only [strLeChars, if_neg h2] at hbc ⊢
            exact hbc
        · simp only [strLeChars, if_neg h1] at hab
          rw [decide_eq_true_eq] at hab
          by_cases h2 : b = c
          · subst h2
            simp only [strLeChars, if_neg h1]
            rw [decide_eq_true_eq]
            exact hab
          · simp only [strLeChars, if_neg h2] at hbc
            rw [decide_eq_true_eq] at hbc
            have hac : a.toNat < c.toNat := Nat.lt_trans hab hbc
            have hne : a ≠ c := fun hc => by
              subst hc
              exact Nat.lt_irrefl _ hac
            simp only [strLeChars, if_neg hne]
            rw [decide_eq_true_eq]
            exact hac

/-- Helper: totality of `pyStrLe`. -/
theorem pyStrLe_total (a b : String) : pyStrLe a b = true ∨ pyStrLe b a = true :=
  strLeChars_total a.data b.data

/-- Helper: transitivity of `pyStrLe`. -/
theorem pyStrLe_trans (a b c : String) :
    pyStrLe a b = true → pyStrLe b c = true → pyStrLe a c = true :=
  strLeChars_trans a.data b.data c.data

/-- Helper: membership in an ordered insertion. -/
theorem mem_insortStr : ∀ (x : String) (l : List String) (y : String),
    y ∈ insortStr x l → y = x ∨ y ∈ l := by
  intro x l
  induction l with
  | nil =>
    intro y hy
    simp only [insortStr, List.mem_singleton] at hy
    exact Or.inl hy
  | cons z zs ih =>
    intro y hy
    simp only [insortStr] at hy
    split_ifs at hy
    · rcases List.mem_cons.mp hy with h | h
      · exact Or.inl h
      · exact Or.inr h
    · rcases List.mem_cons.mp hy with h | h
      · exact Or.inr (List.mem_cons.mpr (Or.inl h))
      · rcases ih y h with h2 | h2
        · exact Or.inl h2
        · exact Or.inr (List.mem_cons.mpr (Or.inr h2))

/-- Helper: ordered insertion preserves sortedness. -/
theorem pairwise_insortStr : ∀ (x : String) (l : List String),
    List.Pairwise (fun a b => pyStrLe a b = true) l →
    List.Pairwise (fun a b => pyStrLe a b = true) (insortStr x l) := by
  intro x l
  induction l with
  | nil => intro _; simp [insortStr]
  | cons y ys ih =>
    intro hp
    rcases List.pairwise_cons.mp hp with ⟨hy, hys⟩
    simp only [insortStr]
    split_ifs with hxy
    · refine List.pairwise_cons.mpr ⟨?_, hp⟩
      intro z hz
      rcases List.mem_cons.mp hz with h | h
      · subst h; exact hxy
      · exact pyStrLe_trans x y z hxy (hy z h)
    · refine List.pairwise_cons.mpr ⟨?_, ih hys⟩
      intro z hz
      rcases mem_insortStr x ys z hz with h | h
      · rw [h]
        rcases pyStrLe_total x y with h2 | h2
        · exact absurd h2 hxy
        · exact h2
      · exact hy z h

/-- Helper: the model of Python `sorted` returns a sorted list. -/
theorem pairwise_pySorted (l : List String) :
    List.Pairwise (fun a b => pyStrLe a b = true) (pySorted l) := by
  induction l with
  | nil => simp [pySorted]
  | cons x xs ih => exact pairwise_insortStr x _ ih

/-- Helper: ordered insertion is a permutation of consing. -/
theorem insortStr_perm : ∀ (x : String) (l : List String),
    List.Perm (insortStr x l) (x :: l) := by
  intro x l
  induction l with
  | nil => simp [insortStr]
  | cons y ys ih =>
    simp only [insortStr]
    split_ifs
    · exact List.Perm.refl _
    · exact ((ih.cons y).trans (List.Perm.swap x y ys))

/-- Helper: the model of Python `sorted` permutes its input. -/
theorem pySorted_perm : ∀ l : List String, List.Perm (pySorted l) l := by
  intro l
  induction l with
  | nil => exact List.Perm.refl _
  | cons x xs ih => exact (insortStr_perm x (pySorted xs)).trans (ih.cons x)

/-- Helper: sorting an already sorted list is the identity. -/
theorem pySorted_eq_self : ∀ l : List String,
    List.Pairwise (fun a b => pyStrLe a b = true) l → pySorted l = l := by
  intro l
  induction l with
  | nil => intro _; rfl
  | cons x xs ih =>
    intro hp
    rcases List.pairwise_cons.mp hp with ⟨hx, hxs⟩
    have : pySorted (x :: xs) = insortStr x (pySorted xs) := rfl
    rw [this, ih hxs]
    cases xs with
    | nil => rfl
    | cons y ys =>
      simp only [insortStr]
      rw [if_pos (hx y (List.mem_cons_self y ys))]

/-- Helper: dropping an absent key is the identity. -/
theorem popKey_eq_self (k : String) (l : List (String × JVal))
    (h : ∀ p ∈ l, p.1 ≠ k) : popKey k l = l := by
  unfold popKey
  apply List.filter_eq_self.mpr
  intro p hp
  simpa using h p hp

/-- Helper: members after a pop were members before, with a different
key. -/
theorem mem_popKey (k : String) (l : List (String × JVal)) (p : String × JVal)
    (hp : p ∈ popKey k l) : p ∈ l ∧ p.1 ≠ k := by
  unfold popKey at hp
  have := List.mem_filter.mp hp
  simpa using this

/-- Helper: members after a set are the new pair or old members. -/
theorem mem_setKey (k : String) (v : JVal) (l : List (String × JVal)) (p : String × JVal)
    (hp : p ∈ setKey k v l) : p = (k, v) ∨ p ∈ l := by
  unfold setKey at hp
  split_ifs at hp
  · obtain ⟨q, hq, rfl⟩ := List.mem_map.mp hp
    by_cases hc : q.1 = k
    · rw [if_pos hc]
      exact Or.inl rfl
    · rw [if_neg hc]
      exact Or.inr hq
  · rcases List.mem_append.mp hp with h | h
    · exact Or.inr h
    · simp only [List.mem_singleton] at h
      exact Or.inl h

/-- Helper: looking up through the in-place update of `setKey`. -/
theorem find?_setKey_map (k : String) (v : JVal) : ∀ (l : List (String × JVal)),
    l.any (fun p => decide (p.1 = k)) = true →
    (l.map (fun p => if p.1 = k then (k, v) else p)).find? (fun p => decide (p.1 = k)) =
      some (k, v) := by
  intro l
  induction l with
  | nil => intro h; simp at h
  | cons q l ih =>
    intro hany
    by_cases hc : q.1 = k
    · simp only [List.map_cons, if_pos hc]
      rw [List.find?_cons_of_pos _ (by simp)]
    · simp only [List.map_cons, if_neg hc]
      rw [List.find?_cons_of_neg _ (by simp [hc])]
      apply ih
      rcases List.any_eq_true.mp hany with ⟨p, hp, hpk⟩
      rcases List.mem_cons.mp hp with h | h
      · exfalso
        rw [h] at hpk
        simp only [decide_eq_true_eq] at hpk
        exact hc hpk
      · exact List.any_eq_true.mpr ⟨p, h, hpk⟩

/-- Helper: a key just set is found with its new value. -/
theorem getKey_setKey (k : String) (v : JVal) (l : List (String × JVal)) :
    getKey k (setKey k v l) = some v := by
  unfold getKey setKey
  split_ifs with hany
  · rw [find?_setKey_map k v l hany]
    rfl
  · rw [List.find?_append]
    have hnone : l.find? (fun p => decide (p.1 = k)) = none := by
      rw [List.find?_eq_none]
      intro p hp hpk
      apply hany
      exact List.any_eq_true.mpr ⟨p, hp, hpk⟩
    rw [hnone]
    simp

/-- Helper: setting an absent key appends it. -/
theorem setKey_of_absent (k : String) (v : JVal) (l : List (String × JVal))
    (h : ∀ p ∈ l, p.1 ≠ k) : setKey k v l = l ++ [(k, v)] := by
  unfold setKey
  rw [if_neg]
  intro hany
  rcases List.any_eq_true.mp hany with ⟨p, hp, hpk⟩
  simp only [decide_eq_true_eq] at hpk
  exact h p hp hpk

/-- Helper: setting the same key twice with the same value is setting
it once. -/
theorem setKey_setKey (k : String) (v : JVal) (l : List (String × JVal)) :
    setKey k v (setKey k v l) = setKey k v l := by
  by_cases h1 : l.any (fun p => decide (p.1 = k)) = true
  · unfold setKey
    rw [if_pos h1]
    have hany2 : (l.map (fun p => if p.1 = k then (k, v) else p)).any
        (fun p => decide (p.1 = k)) = true := by
      rcases List.any_eq_true.mp h1 with ⟨p, hp, hpk⟩
      simp only [decide_eq_true_eq] at hpk
      refine List.any_eq_true.mpr ⟨(k, v), List.mem_map.mpr ⟨p, hp, by rw [if_pos hpk]⟩, by simp⟩
    rw [if_pos hany2, List.map_map]
    apply List.map_congr_left
    intro p _
    by_cases hc : p.1 = k
    · simp [Function.comp, hc]
    · simp [Function.comp, hc]
  · have habs : ∀ p ∈ l, p.1 ≠ k := by
      intro p hp hpk
      exact h1 (List.any_eq_true.mpr ⟨p, hp, by simpa using hpk⟩)
    rw [setKey_of_absent k v l habs]
    unfold setKey
    rw [if_pos (by simp)]
    rw [List.map_append]
    have hl : l.map (fun p => if p.1 = k then (k, v) else p) = l := by
      conv_rhs => rw [← List.map_id l]
      apply List.map_congr_left
      intro p hp
      rw [if_neg (habs p hp)]
      rfl
    rw [hl]
    simp

/-- Helper: a present key is found. -/
theorem getKey_isSome_of_mem (k : String) (l : List (String × JVal))
    (h : k ∈ l.map (fun p => p.1)) : (getKey k l).isSome = true := by
  unfold getKey
  obtain ⟨p, hp, hpk⟩ := List.mem_map.mp h
  have : (l.find? (fun p => decide (p.1 = k))).isSome = true := by
    rw [List.find?_isSome]
    exact ⟨p, hp, by simpa using hpk⟩
  obtain ⟨q, hq⟩ := Option.isSome_iff_exists.mp this
  rw [hq]
  rfl

/-- Helper: an absent key is not found. -/
theorem getKey_eq_none_of_absent (k : String) (l : List (String × JVal))
    (h : ∀ p ∈ l, p.1 ≠ k) : getKey k l = none := by
  unfold getKey
  rw [List.find?_eq_none.mpr]
  · rfl
  · intro p hp
    simpa using h p hp

/-- Helper: an in-place update leaves the key list unchanged. -/
theorem setKey_keys_present (k : String) (v : JVal) (l : List (String × JVal))
    (h : l.any (fun p => decide (p.1 = k)) = true) :
    (setKey k v l).map (fun p => p.1) = l.map (fun p => p.1) := by
  unfold setKey
  rw [if_pos h, List.map_map]
  apply List.map_congr_left
  intro p _
  by_cases hc : p.1 = k
  · simp [Function.comp, hc]
  · simp [Function.comp, hc]

/-- Helper: appending a fresh key appends it to the key list. -/
theorem setKey_keys_absent (k : String) (v : JVal) (l : List (String × JVal))
    (h : ¬ l.any (fun p => decide (p.1 = k)) = true) :
    (setKey k v l).map (fun p => p.1) = l.map (fun p => p.1) ++ [k] := by
  unfold setKey
  rw [if_neg h, List.map_append]
  rfl

/-- Helper: dict construction keeps the key list duplicate-free. -/
theorem pyDictAux_keys : ∀ (l acc : List (String × JVal)),
    (acc.map (fun p => p.1)).Nodup →
    ((l.foldl (fun acc p => setKey p.1 p.2 acc) acc).map (fun p => p.1)).Nodup := by
  intro l
  induction l with
  | nil => intro acc h; exact h
  | cons q l ih =>
    intro acc h
    simp only [List.foldl_cons]
    apply ih
    by_cases hc : acc.any (fun p => decide (p.1 = q.1)) = true
    · rw [setKey_keys_present _ _ _ hc]
      exact h
    · rw [setKey_keys_absent _ _ _ hc]
      apply List.Nodup.append h (List.nodup_singleton _)
      intro a ha hb
      simp only [List.mem_singleton] at hb
      subst hb
      apply hc
      obtain ⟨p, hp, hpk⟩ := List.mem_map.mp ha
      exact List.any_eq_true.mpr ⟨p, hp, by simpa using hpk⟩

/-- Helper: the keys of `dict(pairs)` are duplicate-free. -/
theorem pyDict_keys_nodup (pairs : List (String × JVal)) :
    ((pyDict pairs).map (fun p => p.1)).Nodup :=
  pyDictAux_keys pairs [] (by simp)

/-- Helper: dict construction from duplicate-free pairs appends them in
order. -/
theorem pyDictAux_eq : ∀ (l acc : List (String × JVal)),
    (∀ p ∈ l, ∀ r ∈ acc, r.1 ≠ p.1) →
    (l.map (fun p => p.1)).Nodup →
    l.foldl (fun acc p => setKey p.1 p.2 acc) acc = acc ++ l := by
  intro l
  induction l with
  | nil => intro acc _ _; simp
  | cons q l ih =>
    intro acc hdisj hnd
    rw [List.map_cons] at hnd
    rcases List.nodup_cons.mp hnd with ⟨hq1, hltl⟩
    simp only [List.foldl_cons]
    rw [setKey_of_absent _ _ _ (fun r hr => hdisj q (List.mem_cons_self q l) r hr)]
    rw [ih (acc ++ [q]) ?_ hltl]
    · simp
    · intro p hp r hr
      rcases List.mem_append.mp hr with h | h
      · exact hdisj p (List.mem_cons_of_mem q hp) r h
      · simp only [List.mem_singleton] at h
        subst h
        intro hc
        exact hq1 (by
          rw [hc]
          exact List.mem_map.mpr ⟨p, hp, rfl⟩)

/-- Helper: `dict(pairs)` with duplicate-free keys is the identity. -/
theorem pyDict_eq_self (l : List (String × JVal))
    (h : (l.map (fun p => p.1)).Nodup) : pyDict l = l := by
  unfold pyDict
  rw [pyDictAux_eq l [] (by simp) h]
  simp

/-- Helper: rebuilding an association list from its own keys is the
identity when the keys are duplicate-free. -/
theorem rebuild_eq_self : ∀ (d : List (String × JVal)),
    (d.map (fun p => p.1)).Nodup →
    ((d.map (fun p => p.1)).filterMap (fun k => (getKey k d).map (fun v => (k, v)))) = d := by
  intro d
  induction d with
  | nil => intro _; rfl
  | cons q rest ih =>
    intro hnd
    rw [List.map_cons] at hnd
    rcases List.nodup_cons.mp hnd with ⟨hq1, hrest⟩
    simp only [List.map_cons, List.filterMap_cons]
    have hget : getKey q.1 (q :: rest) = some q.2 := by
      unfold getKey
      rw [List.find?_cons_of_pos _ (by simp)]
      rfl
    rw [hget]
    simp only [Option.map_some']
    have htail : (rest.map (fun p => p.1)).filterMap
        (fun k => (getKey k (q :: rest)).map (fun v => (k, v))) =
        (rest.map (fun p => p.1)).filterMap
        (fun k => (getKey k rest).map (fun v => (k, v))) := by
      apply List.filterMap_congr
      intro k hk
      have hkq : ¬ (q.1 = k) := by
        intro hc
        exact hq1 (by rw [hc]; exact hk)
      unfold getKey
      rw [List.find?_cons_of_neg _ (by simpa using hkq)]
    rw [htail, ih hrest]

/-- Helper: rebuilding from keys that are all present keeps exactly
those keys. -/
theorem filterMap_keys : ∀ (ks : List String) (d : List (String × JVal)),
    (∀ k ∈ ks, k ∈ d.map (fun p => p.1)) →
    ((ks.filterMap (fun k => (getKey k d).map (fun v => (k, v)))).map (fun p => p.1)) = ks := by
  intro ks d
  induction ks with
  | nil => intro _; rfl
  | cons k ks ih =>
    intro h
    have hsome := getKey_isSome_of_mem k d (h k (List.mem_cons_self k ks))
    obtain ⟨v, hv⟩ := Option.isSome_iff_exists.mp hsome
    simp only [List.filterMap_cons, hv, Option.map_some', List.map_cons]
    rw [ih (fun k2 hk2 => h k2 (List.mem_cons_of_mem k hk2))]

/-- Helper: every pair of the rebuilt dependency list has its key among
the given keys. -/
theorem mem_filterMap_key (ks : List String) (d : List (String × JVal))
    (p : String × JVal)
    (hp : p ∈ ks.filterMap (fun k => (getKey k d).map (fun v => (k, v)))) :
    p.1 ∈ ks := by
  obtain ⟨k, hk, heq⟩ := List.mem_filterMap.mp hp
  obtain ⟨v, _, hkv⟩ := Option.map_eq_some'.mp heq
  rw [← hkv]
  exact hk

/-- Helper: a second pass over an already sorted, duplicate-free,
allow-listed dependency list rebuilds it unchanged. -/
theorem deps_rebuild_fixed (nd : List (String × JVal))
    (hnodup : (nd.map (fun p => p.1)).Nodup)
    (hsorted : List.Pairwise (fun a b => pyStrLe a b = true) (nd.map (fun p => p.1)))
    (hallowed : ∀ p ∈ nd, ALLOWED_RUNTIME_DEPENDENCIES.contains p.1 = true) :
    ((pySorted (((pyDict nd).filter
        (fun p => ALLOWED_RUNTIME_DEPENDENCIES.contains p.1)).map (fun p => p.1))).filterMap
      (fun k => (getKey k ((pyDict nd).filter
        (fun p => ALLOWED_RUNTIME_DEPENDENCIES.contains p.1))).map (fun v => (k, v)))) = nd := by
  rw [pyDict_eq_self nd hnodup, List.filter_eq_self.mpr hallowed,
      pySorted_eq_self _ hsorted]
  exact rebuild_eq_self nd hnodup

/-- C8: the manifest sanitizer is idempotent — sanitizing an already
sanitized manifest returns it unchanged (for every manifest on which
the first sanitization succeeds; a manifest whose `dependencies` value
is not a mapping makes `dict()` raise and has no output to re-run
on). -/
theorem c8_idempotent (pkg out : List (String × JVal))
    (h : sanitize_package_data pkg = Except.ok out) :
    sanitize_package_data out = Except.ok out := by
  unfold sanitize_package_data at h
  generalize hdata : popKey "workspaces" (popKey "pnpm" (popKey "packageManager"
    (popKey "devDependencies" pkg))) = data at h
  dsimp only at h
  have hdatakeys : ∀ p ∈ data, p.1 ≠ "devDependencies" ∧ p.1 ≠ "packageManager" ∧
      p.1 ≠ "pnpm" ∧ p.1 ≠ "workspaces" := by
    intro p hp
    rw [← hdata] at hp
    obtain ⟨hp1, hw⟩ := mem_popKey _ _ _ hp
    obtain ⟨hp2, hpn⟩ := mem_popKey _ _ _ hp1
    obtain ⟨hp3, hpm⟩ := mem_popKey _ _ _ hp2
    obtain ⟨_, hdd⟩ := mem_popKey _ _ _ hp3
    exact ⟨hdd, hpm, hpn, hw⟩
  cases hdd : (getKey "dependencies" data).getD (JVal.jobj []) with
  | jnull => rw [hdd] at h; exact Except.noConfusion h
  | jbool b => rw [hdd] at h; exact Except.noConfusion h
  | jnum n => rw [hdd] at h; exact Except.noConfusion h
  | jstr s => rw [hdd] at h; exact Except.noConfusion h
  | jarr xs => rw [hdd] at h; exact Except.noConfusion h
  | jobj pairs =>
    rw [hdd] at h
    have hout := Except.ok.inj h
    -- facts about the rebuilt dependency list
    have hFkeys : ((((pyDict pairs).filter
        (fun p => ALLOWED_RUNTIME_DEPENDENCIES.contains p.1)).map (fun p => p.1))).Nodup :=
      ((List.filter_sublist _).map _).nodup (pyDict_keys_nodup pairs)
    have hks_nodup : (pySorted (((pyDict pairs).filter
        (fun p => ALLOWED_RUNTIME_DEPENDENCIES.contains p.1)).map (fun p => p.1))).Nodup :=
      (pySorted_perm _).nodup_iff.mpr hFkeys
    have hks_sorted := pairwise_pySorted (((pyDict pairs).filter
        (fun p => ALLOWED_RUNTIME_DEPENDENCIES.contains p.1)).map (fun p => p.1))
    have hks_sub : ∀ k ∈ pySorted (((pyDict pairs).filter
        (fun p => ALLOWED_RUNTIME_DEPENDENCIES.contains p.1)).map (fun p => p.1)),
        k ∈ ((pyDict pairs).filter
          (fun p => ALLOWED_RUNTIME_DEPENDENCIES.contains p.1)).map (fun p => p.1) :=
      fun k hk => (pySorted_perm _).mem_iff.mp hk
    have hnd_keys := filterMap_keys _ _ hks_sub
    have hnd_nodup : (((pySorted (((pyDict pairs).filter
        (fun p => ALLOWED_RUNTIME_DEPENDENCIES.contains p.1)).map (fun p => p.1))).filterMap
          (fun k => (getKey k ((pyDict pairs).filter
            (fun p => ALLOWED_RUNTIME_DEPENDENCIES.contains p.1))).map (fun v => (k, v)))).map
        (fun p => p.1)).Nodup := by
      rw [hnd_keys]; exact hks_nodup
    have hnd_sorted : List.Pairwise (fun a b => pyStrLe a b = true)
        (((pySorted (((pyDict pairs).filter
          (fun p => ALLOWED_RUNTIME_DEPENDENCIES.contains p.1)).map (fun p => p.1))).filterMap
            (fun k => (getKey k ((pyDict pairs).filter
              (fun p => ALLOWED_RUNTIME_DEPENDENCIES.contains p.1))).map (fun v => (k, v)))).map
          (fun p => p.1)) := by
      rw [hnd_keys]; exact hks_sorted
    have hnd_allowed : ∀ p ∈ (pySorted (((pyDict pairs).filter
        (fun p => ALLOWED_RUNTIME_DEPENDENCIES.contains p.1)).map (fun p => p.1))).filterMap
          (fun k => (getKey k ((pyDict pairs).filter
            (fun p => ALLOWED_RUNTIME_DEPENDENCIES.contains p.1))).map (fun v => (k, v))),
        ALLOWED_RUNTIME_DEPENDENCIES.contains p.1 = true := by
      intro p hp
      have hk := mem_filterMap_key _ _ p hp
      have hkF := hks_sub _ hk
      obtain ⟨q, hq, hqk⟩ := List.mem_map.mp hkF
      have := List.mem_filter.mp hq
      rw [← hqk]
      exact this.2
    have hfix := deps_rebuild_fixed _ hnd_nodup hnd_sorted hnd_allowed
    -- key facts about the output
    have houtkeys : ∀ p ∈ out, p.1 ≠ "devDependencies" ∧ p.1 ≠ "packageManager" ∧
        p.1 ≠ "pnpm" ∧ p.1 ≠ "workspaces" := by
      intro p hp
      rw [← hout] at hp
      rcases mem_setKey _ _ _ _ hp with hpe | hpd
      · rw [hpe]
        refine ⟨?_, ?_, ?_, ?_⟩
        · show ("dependencies" : String) ≠ "devDependencies"
          decide
        · show ("dependencies" : String) ≠ "packageManager"
          decide
        · show ("dependencies" : String) ≠ "pnpm"
          decide
        · show ("dependencies" : String) ≠ "workspaces"
          decide
      · exact hdatakeys p hpd
    have hget : getKey "dependencies" out = some (JVal.jobj
        ((pySorted (((pyDict pairs).filter
          (fun p => ALLOWED_RUNTIME_DEPENDENCIES.contains p.1)).map (fun p => p.1))).filterMap
            (fun k => (getKey k ((pyDict pairs).filter
              (fun p => ALLOWED_RUNTIME_DEPENDENCIES.contains p.1))).map (fun v => (k, v))))) := by
      rw [← hout]
      exact getKey_setKey _ _ _
    have hsetfix : setKey "dependencies" (JVal.jobj
        ((pySorted (((pyDict pairs).filter
          (fun p => ALLOWED_RUNTIME_DEPENDENCIES.contains p.1)).map (fun p => p.1))).filterMap
            (fun k => (getKey k ((pyDict pairs).filter
              (fun p => ALLOWED_RUNTIME_DEPENDENCIES.contains p.1))).map (fun v => (k, v)))))
        out = out := by
      rw [← hout]
      exact setKey_setKey _ _ _
    -- the second run
    unfold sanitize_package_data
    rw [popKey_eq_self _ _ (fun p hp => (houtkeys p hp).1)]
    rw [popKey_eq_self _ _ (fun p hp => (houtkeys p hp).2.1)]
    rw [popKey_eq_self _ _ (fun p hp => (houtkeys p hp).2.2.1)]
    rw [popKey_eq_self _ _ (fun p hp => (houtkeys p hp).2.2.2)]
    dsimp only
    rw [hget]
    simp only [Option.getD_some]
    rw [hfix, hsetfix]

/-- Concrete manifest of the repository's sanitizer test. -/
def pkgExample : List (String × JVal) :=
  [("name", JVal.jstr "vercel"), ("version", JVal.jstr "0.0.0"),
   ("dependencies", JVal.jobj
     [("@vercel/python", JVal.jstr "5.0.0"), ("@vercel/node", JVal.jstr "5.3.17"),
      ("@vercel/build-utils", JVal.jstr "11.0.2"),
      ("@vercel/detect-agent", JVal.jstr "0.2.0"),
      ("chokidar", JVal.jstr "4.0.0"), ("jose", JVal.jstr "5.9.6")]),
   ("devDependencies", JVal.jobj [("typescript", JVal.jstr "4.9.5")]),
   ("packageManager", JVal.jstr "pnpm@9"), ("pnpm", JVal.jobj []),
   ("workspaces", JVal.jarr [JVal.jstr "packages/*"])]

/-- The sanitized output of `pkgExample`. -/
def outExample : List (String × JVal) :=
  [("name", JVal.jstr "vercel"), ("version", JVal.jstr "0.0.0"),
   ("dependencies", JVal.jobj
     [("@vercel/build-utils", JVal.jstr "11.0.2"),
      ("@vercel/detect-agent", JVal.jstr "0.2.0"),
      ("@vercel/python", JVal.jstr "5.0.0")])]

/-- C8, witness: idempotence applied to the sanitizer test's
manifest. -/
theorem c8_witness : sanitize_package_data outExample = Except.ok outExample :=
  c8_idempotent pkgExample outExample rfl

/-! ## Claims about the vendor orchestrator -/

/-- Helper: looking up through the in-place update of `updEntry`. -/
theorem find?_updEntry_map (p : List String) (e : FsEntry) : ∀ (fs : Fs),
    fs.any (fun q => decide (q.1 = p)) = true →
    (fs.map (fun q => if q.1 = p then (p, e) else q)).find? (fun q => decide (q.1 = p)) =
      some (p, e) := by
  intro fs
  induction fs with
  | nil => intro h; simp at h
  | cons q fs ih =>
    intro hany
    by_cases hc : q.1 = p
    · simp only [List.map_cons, if_pos hc]
      rw [List.find?_cons_of_pos _ (by simp)]
    · simp only [List.map_cons, if_neg hc]
      rw [List.find?_cons_of_neg _ (by simp [hc])]
      apply ih
      rcases List.any_eq_true.mp hany with ⟨r, hr, hrk⟩
      rcases List.mem_cons.mp hr with h | h
      · exfalso
        rw [h] at hrk
        simp only [decide_eq_true_eq] at hrk
        exact hc hrk
      · exact List.any_eq_true.mpr ⟨r, h, hrk⟩

/-- Helper: a path just written is found with its new entry. -/
theorem lookupFs_updEntry_self (fs : Fs) (p : List String) (e : FsEntry) :
    lookupFs (updEntry fs p e) p = some e := by
  unfold lookupFs updEntry
  split_ifs with hany
  · rw [find?_updEntry_map p e fs hany]
    rfl
  · rw [List.find?_append]
    have hnone : fs.find? (fun q => decide (q.1 = p)) = none := by
      rw [List.find?_eq_none]
      intro q hq hqk
      exact hany (List.any_eq_true.mpr ⟨q, hq, hqk⟩)
    rw [hnone]
    simp

/-- Helper: writing one path leaves lookups of other paths unchanged. -/
theorem lookupFs_updEntry_ne (fs : Fs) (p : List String) (e : FsEntry)
    (q : List String) (h : q ≠ p) :
    lookupFs (updEntry fs p e) q = lookupFs fs q := by
  have hpq : ¬ p = q := fun hc2 => h hc2.symm
  unfold lookupFs updEntry
  split_ifs with hany
  · clear hany
    have hfind : (fs.map (fun r => if r.1 = p then (p, e) else r)).find?
        (fun r => decide (r.1 = q)) = fs.find? (fun r => decide (r.1 = q)) := by
      induction fs with
      | nil => rfl
      | cons r fs ih =>
        by_cases hc : r.1 = p
        · simp only [List.map_cons, if_pos hc]
          rw [List.find?_cons_of_neg _ (by simpa using hpq),
              List.find?_cons_of_neg _ (by
                simp only [decide_eq_true_eq, hc]
                exact hpq)]
          exact ih
        · simp only [List.map_cons, if_neg hc]
          by_cases hrq : r.1 = q
          · rw [List.find?_cons_of_pos _ (by simpa using hrq),
                List.find?_cons_of_pos _ (by simpa using hrq)]
          · rw [List.find?_cons_of_neg _ (by simpa using hrq),
                List.find?_cons_of_neg _ (by simpa using hrq)]
            exact ih
    rw [hfind]
  · rw [List.find?_append]
    have hlast : ([(p, e)] : Fs).find? (fun r => decide (r.1 = q)) = none := by
      rw [List.find?_eq_none]
      intro r hr
      simp only [List.mem_singleton] at hr
      subst hr
      simpa using hpq
    cases hfs : fs.find? (fun r => decide (r.1 = q)) with
    | none => rw [hlast]; rfl
    | some r => rfl

/-- Helper: a path absent from a tree is not found. -/
theorem lookupFs_eq_none_of_absent (fs : Fs) (p : List String)
    (h : ∀ q ∈ fs, q.1 ≠ p) : lookupFs fs p = none := by
  unfold lookupFs
  rw [List.find?_eq_none.mpr]
  · rfl
  · intro q hq
    simpa using h q hq

/-- Helper: lookups through `copytree`'s overwrite prefer the copied
tree and fall back to the destination. -/
theorem lookup_copyTreeInto : ∀ (w d : Fs),
    (w.map (fun e => e.1)).Nodup → ∀ p,
    lookupFs (copyTreeInto d w) p =
      match lookupFs w p with
      | some e => some e
      | none => lookupFs d p := by
  intro w
  induction w with
  | nil => intro d _ p; rfl
  | cons q rest ih =>
    intro d hnd p
    rw [List.map_cons] at hnd
    rcases List.nodup_cons.mp hnd with ⟨hq1, hrest⟩
    have step : copyTreeInto d (q :: rest) = copyTreeInto (updEntry d q.1 q.2) rest := rfl
    rw [step, ih (updEntry d q.1 q.2) hrest p]
    by_cases hpq : p = q.1
    · have h1 : lookupFs (q :: rest) p = some q.2 := by
        unfold lookupFs
        rw [List.find?_cons_of_pos _ (by simp [hpq])]
        rfl
      have h2 : lookupFs rest p = none := by
        apply lookupFs_eq_none_of_absent
        intro r hr hc
        apply hq1
        have hmem : r.1 ∈ List.map (fun e => e.1) rest := List.mem_map.mpr ⟨r, hr, rfl⟩
        rw [hc] at hmem
        rw [hpq] at hmem
        exact hmem
      rw [h1, h2, hpq, lookupFs_updEntry_self]
    · have hqp : ¬ q.1 = p := fun hc => hpq hc.symm
      have h1 : lookupFs (q :: rest) p = lookupFs rest p := by
        unfold lookupFs
        rw [List.find?_cons_of_neg _ (by simpa using hqp)]
      rw [h1, lookupFs_updEntry_ne d q.1 q.2 p hpq]

/-- Helper: finding through a filter whose predicate depends only on
the key. -/
theorem find?_filter_key (c : List String → Bool) (p : List String) : ∀ (d : Fs),
    (d.filter (fun e => c e.1)).find? (fun e => decide (e.1 = p)) =
      (if c p then d.find? (fun e => decide (e.1 = p)) else none) := by
  intro d
  induction d with
  | nil => cases hc : c p <;> simp
  | cons q rest ih =>
    rw [List.filter_cons]
    by_cases hcq : c q.1 = true
    · rw [if_pos hcq]
      by_cases hqp : q.1 = p
      · have hcp : c p = true := hqp ▸ hcq
        rw [List.find?_cons_of_pos _ (by simpa using hqp), if_pos hcp,
            List.find?_cons_of_pos _ (by simpa using hqp)]
      · rw [List.find?_cons_of_neg _ (by simpa using hqp), ih]
        cases hcp : c p
        · simp
        · rw [if_pos rfl, if_pos rfl, List.find?_cons_of_neg _ (by simpa using hqp)]
    · rw [if_neg hcq, ih]
      by_cases hqp : q.1 = p
      · have hcp : c p = false := by
          rw [← hqp]
          simpa using hcq
        rw [hcp]
        simp
      · cases hcp : c p
        · simp
        · rw [if_pos rfl, if_pos rfl, List.find?_cons_of_neg _ (by simpa using hqp)]

/-- Helper: after the clearing loop only `.gitkeep`-headed paths
survive, with their old entries. -/
theorem lookup_clearVendor (d : Fs) (p : List String) :
    lookupFs (clearVendor d) p =
      (if p.head? = some ".gitkeep" then lookupFs d p else none) := by
  unfold clearVendor lookupFs
  rw [find?_filter_key (fun path => decide (path.head? = some ".gitkeep")) p d]
  by_cases hc : p.head? = some ".gitkeep"
  · rw [if_pos (by simpa using hc), if_pos hc]
  · rw [if_neg (by simpa using hc), if_neg hc]
    rfl

/-- C4, amended: whenever `update vendor to version` raises — a failure
of metadata resolution, pack, the `dist` subscripts, integrity
verification, opening the tarball, or the dependency install — the
destination vendored directory is left exactly as it was before the
call; only the manifest-sanitization step is excepted from this rule,
because its failure is caught, logged and does not abort the update. -/
theorem c4_abort_keeps_vendor (env : Env) (vendor0 : Fs) (e : UErr)
    (h : (update_vendor env vendor0).1 = Except.error e) :
    (update_vendor env vendor0).2 = vendor0 := by
  unfold update_vendor at h ⊢
  cases hw : workResult env with
  | error e2 => rfl
  | ok w =>
    rw [hw] at h
    exact absurd h (by simp)

/-- Environment whose registry resolution raises at step 1. -/
def envViewFail : Env :=
  { viewResult := Except.error UErr.registry
    packResult := Except.ok []
    parseTar := fun _ => Except.ok []
    parseJson := fun _ => Except.error UErr.manifest
    dumps := fun _ => []
    installResult := Except.ok id }

/-- A stale destination tree with no keep-marker. -/
def vendorStale : Fs := [(["old_file.txt"], FsEntry.file [120] 420)]

/-- C4, witness for the amended theorem: a failing `npm view` leaves
the stale destination untouched. -/
theorem c4_witness : (update_vendor envViewFail vendorStale).2 = vendorStale :=
  c4_abort_keeps_vendor envViewFail vendorStale UErr.registry rfl

/-- Environment where every step succeeds except manifest parsing: the
registry supplies empty (hence skipped) digests, packing and extraction
produce a two-file tree whose `package.json` is unparsable. -/
def envManifestFail : Env :=
  { viewResult := Except.ok (JVal.jobj
      [("dist", JVal.jobj [("integrity", JVal.jstr ""), ("shasum", JVal.jstr "")])])
    packResult := Except.ok []
    parseTar := fun _ => Except.ok
      [⟨"package/package.json", FType.reg, "", [123], 420⟩,
       ⟨"package/index.js", FType.reg, "", [99], 420⟩]
    parseJson := fun _ => Except.error UErr.manifest
    dumps := fun _ => []
    installResult := Except.ok id }

/-- The working tree `envManifestFail` produces. -/
def workManifestFail : Fs :=
  [(["package.json"], FsEntry.file [123] 420), (["index.js"], FsEntry.file [99] 420)]

/-- C4, counterexample: with `envManifestFail` the manifest-handling
step fails (step 5 of the sequence), yet `update vendor to version`
does not raise — it completes and replaces the destination, which ends
up different from its initial state.  The claim's assertion that a
manifest-handling failure aborts the update with the destination
untouched is false. -/
theorem c4_counterexample :
    manifest_step envManifestFail workManifestFail = Except.error UErr.manifest ∧
    update_vendor envManifestFail vendorStale = (Except.ok (), workManifestFail) ∧
    workManifestFail ≠ vendorStale := by
  refine ⟨rfl, rfl, by decide⟩

/-- C5, amended: after a successful update the destination holds
exactly the entries of the prepared working tree, plus — only at paths
the working tree does not supply — the pre-existing entries whose first
segment is the keep-marker name `.gitkeep`; every other pre-existing
entry is gone.  In particular no `.gitkeep` is created when none
existed before. -/
theorem c5_replace_spec (env : Env) (vendor0 work : Fs)
    (hw : workResult env = Except.ok work)
    (hnd : (work.map (fun e => e.1)).Nodup) :
    update_vendor env vendor0 = (Except.ok (), replaceVendor vendor0 work) ∧
    ∀ p, lookupFs (replaceVendor vendor0 work) p =
      match lookupFs work p with
      | some e => some e
      | none => if p.head? = some ".gitkeep" then lookupFs vendor0 p else none := by
  constructor
  · unfold update_vendor
    rw [hw]
  · intro p
    unfold replaceVendor
    rw [lookup_copyTreeInto work (clearVendor vendor0) hnd p]
    cases lookupFs work p with
    | some e => rfl
    | none =>
      simp only []
      exact lookup_clearVendor vendor0 p

/-- C5, counterexample: a successful update into a destination that
held a stale file but no `.gitkeep` leaves a destination with no
`.gitkeep` entry — the claim's assertion that the destination always
contains the working tree *plus* the keep-marker `.gitkeep` is false
(the marker is only preserved when it already existed, never
created). -/
theorem c5_counterexample :
    (update_vendor envManifestFail vendorStale).1 = Except.ok () ∧
    lookupFs vendorStale ["old_file.txt"] = some (FsEntry.file [120] 420) ∧
    lookupFs (update_vendor envManifestFail vendorStale).2 [".gitkeep"] = none ∧
    lookupFs (update_vendor envManifestFail vendorStale).2 ["old_file.txt"] = none := by
  refine ⟨rfl, rfl, rfl, rfl⟩

/-- C5, witness for the amended theorem at the concrete environment. -/
theorem c5_witness :
    lookupFs (replaceVendor vendorStale workManifestFail) ["index.js"] =
      match lookupFs workManifestFail ["index.js"] with
      | some e => some e
      | none => if (["index.js"] : List String).head? = some ".gitkeep" then
          lookupFs vendorStale ["index.js"] else none :=
  (c5_replace_spec envManifestFail vendorStale workManifestFail rfl (by decide)).2 ["index.js"]

/-! ## Claims about the check front ends -/

/-- C9, counterexample: when the latest version cannot be resolved
(`resolve latest version` returned the empty string), the `check`
command of `vendor_cli` returns exit code 0 — not a nonzero code as
claimed: the empty string is falsy, so the command takes the
nothing-to-update branch. -/
theorem c9_counterexample :
    cmd_check true true "1.0.0" "" = (0, false, [("updated", "false")]) := rfl

/-- C9, amended: `cmd_check` of `vendor_cli` returns 0 on every
non-raising path, including an unresolvable latest version; only the CI
script `check_and_update.main` follows the claimed contract, returning
0 exactly when the latest version resolved and either nothing needed
updating or the re-read version matches it, and 1 otherwise. -/
theorem c9_exit_codes (vendorFlag githubOutputs : Bool) (current latest reread : String) :
    (cmd_check vendorFlag githubOutputs current latest).1 = 0 ∧
    ((check_and_update_main current latest reread).1 = 0 ↔
      (latest ≠ "" ∧ (current = latest ∨ reread = latest))) := by
  constructor
  · unfold cmd_check
    split_ifs <;> rfl
  · unfold check_and_update_main
    split_ifs with h1 h2 h3
    · simp [h1]
    · simp [h1, h2]
    · simp [h1, h2, h3]
    · have h4 : reread = latest := by
        by_contra hc
        exact h3 hc
      simp [h1, h2, h4]
